import Mathlib

/-!
Shallow embedding of the PINN wave-equation notebook
(`PINN_wave_equation.ipynb`) and proofs about it.

The notebook trains a neural network `u(x, t)` against a composite
physics-informed loss for the 1D wave equation `u_tt = c^2 u_xx` on
`x ∈ [0,1]`, `t ∈ [0,T]`.  The network itself is an external
collaborator; here it is an arbitrary function `u : ℝ → ℝ → ℝ`, and the
automatic derivatives taken by `torch.autograd.grad` are the real
derivatives `deriv`.  Machine floats are modelled as exact reals for the
arithmetic of the loss; the float-special values NaN/±inf that drive the
training loop's guard and the relative-error metric are modelled
explicitly by the type `RVal` below.
-/

open Real

/-- Arithmetic mean of a list, as computed by `torch.mean`:
sum divided by length (generic over the scalar field). -/
def mean {α : Type} [DivisionRing α] (l : List α) : α :=
  l.sum / (l.length : α)

/-- Wave speed, set in the notebook by `c = 1.0`. -/
noncomputable def c : ℝ := 1

/-- First time derivative `u_t`, the model of
`torch.autograd.grad(u, t, create_graph=True)`. -/
noncomputable def d_t (u : ℝ → ℝ → ℝ) (x t : ℝ) : ℝ :=
  deriv (u x) t

/-- Second time derivative `u_tt = ∂(u_t)/∂t`. -/
noncomputable def d_tt (u : ℝ → ℝ → ℝ) (x t : ℝ) : ℝ :=
  deriv (fun s => d_t u x s) t

/-- First spatial derivative `u_x`. -/
noncomputable def d_x (u : ℝ → ℝ → ℝ) (x t : ℝ) : ℝ :=
  deriv (fun y => u y t) x

/-- Second spatial derivative `u_xx = ∂(u_x)/∂x`. -/
noncomputable def d_xx (u : ℝ → ℝ → ℝ) (x t : ℝ) : ℝ :=
  deriv (fun y => d_x u y t) x

/-- Source line `physics_loss = torch.mean((u_tt - c**2 * u_xx) ** 2)`,
taken pointwise over the paired batch entries. -/
noncomputable def physics_loss (u : ℝ → ℝ → ℝ) (xs ts : List ℝ) : ℝ :=
  mean ((xs.zip ts).map fun p => (d_tt u p.1 p.2 - c ^ 2 * d_xx u p.1 p.2) ^ 2)

/-- Source lines `u0 = model(x, t_zeros)` and
`initial_loss = torch.mean((u0 - torch.sin(np.pi * x))**2)`. -/
noncomputable def initial_loss (u : ℝ → ℝ → ℝ) (xs : List ℝ) : ℝ :=
  mean (xs.map fun x => (u x 0 - Real.sin (Real.pi * x)) ^ 2)

/-- Source lines `u_t0 = torch.autograd.grad(u0, t_zeros, ...)` and
`velocity_loss = torch.mean(u_t0**2 + 1e-6)`. -/
noncomputable def velocity_loss (u : ℝ → ℝ → ℝ) (xs : List ℝ) : ℝ :=
  mean (xs.map fun x => (d_t u x 0) ^ 2 + 1e-6)

/-- Source lines `u_left = model(torch.zeros_like(t), t)`,
`u_right = model(torch.ones_like(t), t)` and
`boundary_loss = torch.mean(u_left**2) + torch.mean(u_right**2)`. -/
noncomputable def boundary_loss (u : ℝ → ℝ → ℝ) (ts : List ℝ) : ℝ :=
  mean (ts.map fun t => (u 0 t) ^ 2) + mean (ts.map fun t => (u 1 t) ^ 2)

/-- Source function `wave_pinn_loss`:
`total_loss = physics_loss + initial_loss + velocity_loss + boundary_loss`. -/
noncomputable def wave_pinn_loss (u : ℝ → ℝ → ℝ) (xs ts : List ℝ) : ℝ :=
  physics_loss u xs ts + initial_loss u xs + velocity_loss u xs + boundary_loss u ts

/-- Spec-side formula for the composite loss, written out literally as the
claim states it (the unweighted sum of the four mean-square terms), to be
compared with the source-derived `wave_pinn_loss`. -/
noncomputable def wave_pinn_loss_specForm (u : ℝ → ℝ → ℝ) (xs ts : List ℝ) : ℝ :=
  mean ((xs.zip ts).map fun p => (d_tt u p.1 p.2 - c ^ 2 * d_xx u p.1 p.2) ^ 2)
    + mean (xs.map fun x => (u x 0 - Real.sin (Real.pi * x)) ^ 2)
    + mean (xs.map fun x => (d_t u x 0) ^ 2 + 1e-6)
    + (mean (ts.map fun t => (u 0 t) ^ 2) + mean (ts.map fun t => (u 1 t) ^ 2))

/-- Source function `exact_solution`:
`torch.sin(np.pi * x) * torch.cos(c * np.pi * t)`. -/
noncomputable def exact_solution (x t : ℝ) : ℝ :=
  Real.sin (Real.pi * x) * Real.cos (c * Real.pi * t)

/-- Model of a torch tensor as seen by the caller of `wave_pinn_loss`:
its numeric contents together with its `requires_grad` flag. -/
structure Tensor where
  vals : List ℝ
  requires_grad : Bool

/-- Effectful view of the source function `wave_pinn_loss`: its first two
statements are the in-place assignments `x.requires_grad = True` and
`t.requires_grad = True`, so a call returns the loss value together with
the post-call state of the two caller-owned batch tensors. -/
noncomputable def wave_pinn_loss_call (u : ℝ → ℝ → ℝ) (x t : Tensor) :
    ℝ × Tensor × Tensor :=
  (wave_pinn_loss u x.vals t.vals, ⟨x.vals, true⟩, ⟨t.vals, true⟩)

/-- IEEE-style extended value: the possible states of a float scalar such
as the loss returned by `wave_pinn_loss` or the relative error, with NaN
and the two infinities made explicit. -/
inductive RVal : Type
  | num (r : ℝ)
  | posInf
  | negInf
  | nan

/-- Test used by the training loop: `torch.isnan(loss)`. -/
def RVal.isNaN : RVal → Bool
  | RVal.nan => true
  | _ => false

/-- Finiteness of an extended value: only an ordinary number is finite. -/
def RVal.isFinite : RVal → Bool
  | RVal.num _ => true
  | _ => false

/-- IEEE addition on extended values (NaN absorbs; opposite infinities
give NaN), the model of summing a tensor that may hold specials. -/
def RVal.add : RVal → RVal → RVal
  | RVal.nan, _ => RVal.nan
  | _, RVal.nan => RVal.nan
  | RVal.num a, RVal.num b => RVal.num (a + b)
  | RVal.num _, RVal.posInf => RVal.posInf
  | RVal.num _, RVal.negInf => RVal.negInf
  | RVal.posInf, RVal.num _ => RVal.posInf
  | RVal.negInf, RVal.num _ => RVal.negInf
  | RVal.posInf, RVal.posInf => RVal.posInf
  | RVal.negInf, RVal.negInf => RVal.negInf
  | RVal.posInf, RVal.negInf => RVal.nan
  | RVal.negInf, RVal.posInf => RVal.nan

/-- Sum of a list of extended values. -/
def RVal.lsum (l : List RVal) : RVal :=
  l.foldr RVal.add (RVal.num 0)

open Classical in
/-- IEEE division on extended values: a nonzero number divided by zero is
a signed infinity, zero divided by zero is NaN, NaN propagates. -/
noncomputable def RVal.div : RVal → RVal → RVal
  | RVal.nan, _ => RVal.nan
  | _, RVal.nan => RVal.nan
  | RVal.num a, RVal.num b =>
      if b = 0 then
        (if a = 0 then RVal.nan else if 0 < a then RVal.posInf else RVal.negInf)
      else RVal.num (a / b)
  | RVal.num _, RVal.posInf => RVal.num 0
  | RVal.num _, RVal.negInf => RVal.num 0
  | RVal.posInf, RVal.num b => if b < 0 then RVal.negInf else RVal.posInf
  | RVal.negInf, RVal.num b => if b < 0 then RVal.posInf else RVal.negInf
  | RVal.posInf, RVal.posInf => RVal.nan
  | RVal.posInf, RVal.negInf => RVal.nan
  | RVal.negInf, RVal.posInf => RVal.nan
  | RVal.negInf, RVal.negInf => RVal.nan

open Classical in
/-- IEEE multiplication on extended values (only what the metric needs:
an infinity times a nonzero number keeps its sign, times zero is NaN,
NaN propagates). -/
noncomputable def RVal.mul : RVal → RVal → RVal
  | RVal.nan, _ => RVal.nan
  | _, RVal.nan => RVal.nan
  | RVal.num a, RVal.num b => RVal.num (a * b)
  | RVal.posInf, RVal.num b =>
      if b = 0 then RVal.nan else if 0 < b then RVal.posInf else RVal.negInf
  | RVal.negInf, RVal.num b =>
      if b = 0 then RVal.nan else if 0 < b then RVal.negInf else RVal.posInf
  | RVal.num a, RVal.posInf =>
      if a = 0 then RVal.nan else if 0 < a then RVal.posInf else RVal.negInf
  | RVal.num a, RVal.negInf =>
      if a = 0 then RVal.nan else if 0 < a then RVal.negInf else RVal.posInf
  | RVal.posInf, RVal.posInf => RVal.posInf
  | RVal.posInf, RVal.negInf => RVal.negInf
  | RVal.negInf, RVal.posInf => RVal.negInf
  | RVal.negInf, RVal.negInf => RVal.posInf

/-- Absolute value on extended values: `torch.abs` maps both infinities
to `+inf` and keeps NaN. -/
noncomputable def RVal.rabs : RVal → RVal
  | RVal.num a => RVal.num |a|
  | RVal.posInf => RVal.posInf
  | RVal.negInf => RVal.posInf
  | RVal.nan => RVal.nan

/-- Pointwise term of the relative-error metric in `calculate_accuracy`:
`torch.abs((u_pred - u_exact) / u_exact)` at one test point, with the
unguarded division carried out in extended-value arithmetic. -/
noncomputable def relative_error_term (u : ℝ → ℝ → ℝ) (p : ℝ × ℝ) : RVal :=
  RVal.rabs (RVal.div (RVal.num (u p.1 p.2 - exact_solution p.1 p.2))
    (RVal.num (exact_solution p.1 p.2)))

/-- Source line
`relative_error = torch.mean(torch.abs((u_pred - u_exact) / u_exact)) * 100`:
mean of the pointwise terms over the test batch, scaled to percent. -/
noncomputable def relative_error (u : ℝ → ℝ → ℝ) (xs ts : List ℝ) : RVal :=
  RVal.mul
    (RVal.div (RVal.lsum ((xs.zip ts).map (relative_error_term u)))
      (RVal.num ((xs.zip ts).length : ℝ)))
    (RVal.num 100)

/-- Source function `calculate_accuracy`: returns the mean-squared error
against `exact_solution` and the relative-error percentage. -/
noncomputable def calculate_accuracy (u : ℝ → ℝ → ℝ) (xs ts : List ℝ) :
    ℝ × RVal :=
  (mean ((xs.zip ts).map fun p => (u p.1 p.2 - exact_solution p.1 p.2) ^ 2),
    relative_error u xs ts)

/-- Outcome of a training run: the final parameter and optimizer states,
the epoch named by the NaN diagnostic if the fatal stop fired, and the
number of optimizer updates that were applied. -/
structure TrainResult (P O : Type) where
  params : P
  optState : O
  haltedAt : Option ℕ
  steps : ℕ

/-- Model of the notebook's training loop body, run from epoch `epoch`
with `fuel` epochs remaining.  `lossOf e p` abstracts
`wave_pinn_loss(model, x_train, t_train)` as evaluated at epoch `e` with
parameter state `p` (an extended value, since a float loss can be NaN or
infinite); `update e p o` abstracts `loss.backward()`,
`clip_grad_norm_`, and `optimizer.step()` as one state transformer.  The
body checks `torch.isnan(loss)` and breaks before any update when it
holds, exactly as the source does. -/
def trainAux {P O : Type} (lossOf : ℕ → P → RVal) (update : ℕ → P → O → P × O) :
    ℕ → ℕ → P → O → TrainResult P O
  | _, 0, p, o => ⟨p, o, none, 0⟩
  | epoch, fuel + 1, p, o =>
      if (lossOf epoch p).isNaN then ⟨p, o, some epoch, 0⟩
      else
        let s := update epoch p o
        let r := trainAux lossOf update (epoch + 1) fuel s.1 s.2
        ⟨r.params, r.optState, r.haltedAt, r.steps + 1⟩

/-- Source training loop `for epoch in range(num_epochs)`, starting from
epoch `0` with `n = num_epochs` iterations available. -/
def trainLoop {P O : Type} (lossOf : ℕ → P → RVal) (update : ℕ → P → O → P × O)
    (n : ℕ) (p : P) (o : O) : TrainResult P O :=
  trainAux lossOf update 0 n p o

/-- Sum of squares of a gradient vector. -/
def sqNorm (g : List ℝ) : ℝ :=
  (g.map fun a => a ^ 2).sum

/-- Euclidean (2-)norm of the full parameter-gradient vector. -/
noncomputable def gradNorm (g : List ℝ) : ℝ :=
  Real.sqrt (sqNorm g)

open Classical in
/-- Modelled from the spec: `torch.nn.utils.clip_grad_norm_` is external
library code not present in the repository; the spec describes it as
standard gradient clipping — if `‖g‖ > threshold`, scale `g` by
`threshold / ‖g‖`, otherwise leave it unchanged. -/
noncomputable def clip_grad_norm (threshold : ℝ) (g : List ℝ) : List ℝ :=
  if threshold < gradNorm g then g.map (fun a => (threshold / gradNorm g) * a)
  else g

lemma mean_nonneg (l : List ℝ) (h : ∀ a ∈ l, 0 ≤ a) : 0 ≤ mean l := by
  exact div_nonneg (List.sum_nonneg h) (Nat.cast_nonneg _)

lemma mean_eq_zero (l : List ℝ) (h : ∀ a ∈ l, a = 0) : mean l = 0 := by
  rw [mean, List.sum_eq_zero h, zero_div]

lemma mul_length_le_sum (l : List ℝ) (k : ℝ) (h : ∀ a ∈ l, k ≤ a) :
    k * l.length ≤ l.sum := by
  induction l with
  | nil => simp
  | cons a l ih =>
      have ha : k ≤ a := h a (List.mem_cons_self a l)
      have hl : k * l.length ≤ l.sum := ih fun b hb => h b (List.mem_cons_of_mem a hb)
      simp only [List.sum_cons, List.length_cons]
      push_cast
      nlinarith

lemma le_mean (l : List ℝ) (k : ℝ) (hl : l ≠ []) (h : ∀ a ∈ l, k ≤ a) :
    k ≤ mean l := by
  have hlen : (0 : ℝ) < l.length := by
    have := List.length_pos.2 hl
    exact_mod_cast this
  rw [mean, le_div_iff₀ hlen]
  exact mul_length_le_sum l k h

lemma mean_map_const (l : List ℝ) (k : ℝ) (hl : l ≠ []) :
    mean (l.map fun _ => k) = k := by
  have hlen : (l.length : ℝ) ≠ 0 := by
    have := List.length_pos.2 hl
    positivity
  rw [mean, List.map_const', List.sum_replicate, List.length_replicate,
    nsmul_eq_mul, mul_comm, mul_div_assoc, div_self hlen, mul_one]

/-- C1: for every collocation batch, the residual evaluator returns the
composite loss as the unweighted sum of exactly four terms —
`physics_loss = mean((u_tt - c^2 u_xx)^2)`,
`initial_loss = mean((u(x,0) - sin(pi x))^2)`,
`velocity_loss = mean(u_t(x,0)^2 + 1e-6)`, and
`boundary_loss = mean(u(0,t)^2) + mean(u(1,t)^2)` — with no relative
weighting between the terms. -/
theorem c1_composite_loss_decomposition (u : ℝ → ℝ → ℝ) (xs ts : List ℝ) :
    wave_pinn_loss u xs ts = wave_pinn_loss_specForm u xs ts := by
  rfl

/-- C5: for all collocation batches the composite loss is non-negative
(finiteness is automatic in the exact real-arithmetic model: every term
is a real number whenever the outputs and derivatives are). -/
theorem c5_loss_nonneg (u : ℝ → ℝ → ℝ) (xs ts : List ℝ) :
    0 ≤ wave_pinn_loss u xs ts := by
  have hphys : 0 ≤ physics_loss u xs ts := by
    refine mean_nonneg _ fun a ha => ?_
    obtain ⟨p, _, rfl⟩ := List.mem_map.1 ha
    positivity
  have hinit : 0 ≤ initial_loss u xs := by
    refine mean_nonneg _ fun a ha => ?_
    obtain ⟨x, _, rfl⟩ := List.mem_map.1 ha
    positivity
  have hvel : 0 ≤ velocity_loss u xs := by
    refine mean_nonneg _ fun a ha => ?_
    obtain ⟨x, _, rfl⟩ := List.mem_map.1 ha
    positivity
  have hbd : 0 ≤ boundary_loss u ts := by
    have h1 : 0 ≤ mean (ts.map fun t => (u 0 t) ^ 2) := by
      refine mean_nonneg _ fun a ha => ?_
      obtain ⟨t, _, rfl⟩ := List.mem_map.1 ha
      positivity
    have h2 : 0 ≤ mean (ts.map fun t => (u 1 t) ^ 2) := by
      refine mean_nonneg _ fun a ha => ?_
      obtain ⟨t, _, rfl⟩ := List.mem_map.1 ha
      positivity
    rw [boundary_loss]
    linarith
  rw [wave_pinn_loss]
  linarith

/-- C6: on every (nonempty) collocation batch the `velocity_loss` term is
bounded below by its additive constant `1e-6`, so the composite loss is
strictly positive — at least `1e-6` — for every approximator and batch. -/
theorem c6_velocity_floor (u : ℝ → ℝ → ℝ) (xs ts : List ℝ) (hx : xs ≠ []) :
    1e-6 ≤ velocity_loss u xs ∧ 1e-6 ≤ wave_pinn_loss u xs ts ∧
      0 < wave_pinn_loss u xs ts := by
  have hvel : (1e-6 : ℝ) ≤ velocity_loss u xs := by
    refine le_mean _ _ (by simpa using hx) fun a ha => ?_
    obtain ⟨x, _, rfl⟩ := List.mem_map.1 ha
    nlinarith [sq_nonneg (d_t u x 0)]
  have hphys : 0 ≤ physics_loss u xs ts := by
    refine mean_nonneg _ fun a ha => ?_
    obtain ⟨p, _, rfl⟩ := List.mem_map.1 ha
    positivity
  have hinit : 0 ≤ initial_loss u xs := by
    refine mean_nonneg _ fun a ha => ?_
    obtain ⟨x, _, rfl⟩ := List.mem_map.1 ha
    positivity
  have hbd : 0 ≤ boundary_loss u ts := by
    have h1 : 0 ≤ mean (ts.map fun t => (u 0 t) ^ 2) := by
      refine mean_nonneg _ fun a ha => ?_
      obtain ⟨t, _, rfl⟩ := List.mem_map.1 ha
      positivity
    have h2 : 0 ≤ mean (ts.map fun t => (u 1 t) ^ 2) := by
      refine mean_nonneg _ fun a ha => ?_
      obtain ⟨t, _, rfl⟩ := List.mem_map.1 ha
      positivity
    rw [boundary_loss]
    linarith
  have htot : (1e-6 : ℝ) ≤ wave_pinn_loss u xs ts := by
    rw [wave_pinn_loss]
    linarith
  exact ⟨hvel, htot, by nlinarith⟩

/-- Witness for C6 at the singleton batch `xs = [0]`, `ts = []`. -/
theorem c6_velocity_floor_witness :
    ([(0 : ℝ)] ≠ ([] : List ℝ)) ∧
      1e-6 ≤ velocity_loss (fun _ _ => 0) [(0 : ℝ)] := by
  refine ⟨by simp, ?_⟩
  exact (c6_velocity_floor (fun _ _ => 0) [(0 : ℝ)] [] (by simp)).1

lemma hasDerivAt_cos_pi (t : ℝ) :
    HasDerivAt (fun s => Real.cos (Real.pi * s)) (-Real.sin (Real.pi * t) * Real.pi) t := by
  have h := (Real.hasDerivAt_cos (Real.pi * t)).comp t ((hasDerivAt_id t).const_mul Real.pi)
  simpa [Function.comp] using h

lemma hasDerivAt_sin_pi (y : ℝ) :
    HasDerivAt (fun s => Real.sin (Real.pi * s)) (Real.cos (Real.pi * y) * Real.pi) y := by
  have h := (Real.hasDerivAt_sin (Real.pi * y)).comp y ((hasDerivAt_id y).const_mul Real.pi)
  simpa [Function.comp] using h

lemma exact_solution_time_slice (x : ℝ) :
    exact_solution x = fun s => Real.sin (Real.pi * x) * Real.cos (Real.pi * s) := by
  funext s
  simp [exact_solution, c]

lemma d_t_exact (x t : ℝ) :
    d_t exact_solution x t =
      Real.sin (Real.pi * x) * (-Real.sin (Real.pi * t) * Real.pi) := by
  rw [d_t, exact_solution_time_slice]
  exact ((hasDerivAt_cos_pi t).const_mul (Real.sin (Real.pi * x))).deriv

lemma d_tt_exact (x t : ℝ) :
    d_tt exact_solution x t =
      Real.sin (Real.pi * x) * (-(Real.cos (Real.pi * t) * Real.pi) * Real.pi) := by
  have hfun : (fun s => d_t exact_solution x s) =
      fun s => Real.sin (Real.pi * x) * (-Real.sin (Real.pi * s) * Real.pi) :=
    funext fun s => d_t_exact x s
  rw [d_tt, hfun]
  have h : HasDerivAt (fun s => -Real.sin (Real.pi * s) * Real.pi)
      (-(Real.cos (Real.pi * t) * Real.pi) * Real.pi) t :=
    ((hasDerivAt_sin_pi t).neg).mul_const Real.pi
  exact (h.const_mul (Real.sin (Real.pi * x))).deriv

lemma exact_solution_space_slice (t : ℝ) :
    (fun y => exact_solution y t) =
      fun y => Real.sin (Real.pi * y) * Real.cos (Real.pi * t) := by
  funext y
  simp [exact_solution, c]

lemma d_x_exact (x t : ℝ) :
    d_x exact_solution x t =
      Real.cos (Real.pi * x) * Real.pi * Real.cos (Real.pi * t) := by
  rw [d_x, exact_solution_space_slice]
  exact ((hasDerivAt_sin_pi x).mul_const (Real.cos (Real.pi * t))).deriv

lemma d_xx_exact (x t : ℝ) :
    d_xx exact_solution x t =
      -Real.sin (Real.pi * x) * Real.pi * Real.pi * Real.cos (Real.pi * t) := by
  have hfun : (fun y => d_x exact_solution y t) =
      fun y => Real.cos (Real.pi * y) * Real.pi * Real.cos (Real.pi * t) :=
    funext fun y => d_x_exact y t
  rw [d_xx, hfun]
  have h : HasDerivAt (fun y => Real.cos (Real.pi * y) * Real.pi * Real.cos (Real.pi * t))
      (-Real.sin (Real.pi * x) * Real.pi * Real.pi * Real.cos (Real.pi * t)) x :=
    ((hasDerivAt_cos_pi x).mul_const Real.pi).mul_const (Real.cos (Real.pi * t))
  exact h.deriv

lemma pde_residual_exact (x t : ℝ) :
    d_tt exact_solution x t - c ^ 2 * d_xx exact_solution x t = 0 := by
  rw [d_tt_exact, d_xx_exact]
  simp only [c]
  ring

lemma initial_residual_exact (x : ℝ) :
    exact_solution x 0 - Real.sin (Real.pi * x) = 0 := by
  simp [exact_solution]

lemma velocity_residual_exact (x : ℝ) : d_t exact_solution x 0 = 0 := by
  rw [d_t_exact]
  simp

lemma boundary_residual_exact (t : ℝ) :
    exact_solution 0 t = 0 ∧ exact_solution 1 t = 0 := by
  constructor
  · simp [exact_solution]
  · simp [exact_solution, Real.sin_pi]

/-- C3: with the exact closed-form solution `u(x,t) = sin(pi x) cos(c pi t)`
substituted for the approximator, every residual vanishes in exact real
arithmetic — the PDE residual `u_tt - c^2 u_xx` at any `(x,t)`, the
initial-displacement residual, the initial-velocity residual, and both
boundary values — hence on any nonempty batch `physics_loss`,
`initial_loss` and `boundary_loss` are `0` and `velocity_loss` equals the
`1e-6` floor. -/
theorem c3_exact_solution_residuals (xs ts : List ℝ) (hx : xs ≠ []) :
    (∀ x t, d_tt exact_solution x t - c ^ 2 * d_xx exact_solution x t = 0) ∧
      (∀ x, exact_solution x 0 - Real.sin (Real.pi * x) = 0) ∧
      (∀ x, d_t exact_solution x 0 = 0) ∧
      (∀ t, exact_solution 0 t = 0 ∧ exact_solution 1 t = 0) ∧
      physics_loss exact_solution xs ts = 0 ∧
      initial_loss exact_solution xs = 0 ∧
      boundary_loss exact_solution ts = 0 ∧
      velocity_loss exact_solution xs = 1e-6 := by
  refine ⟨pde_residual_exact, initial_residual_exact, velocity_residual_exact,
    boundary_residual_exact, ?_, ?_, ?_, ?_⟩
  · refine mean_eq_zero _ fun a ha => ?_
    obtain ⟨p, _, rfl⟩ := List.mem_map.1 ha
    rw [pde_residual_exact]
    ring
  · refine mean_eq_zero _ fun a ha => ?_
    obtain ⟨x, _, rfl⟩ := List.mem_map.1 ha
    rw [initial_residual_exact]
    ring
  · rw [boundary_loss]
    have h1 : mean (ts.map fun t => (exact_solution 0 t) ^ 2) = 0 := by
      refine mean_eq_zero _ fun a ha => ?_
      obtain ⟨t, _, rfl⟩ := List.mem_map.1 ha
      rw [(boundary_residual_exact t).1]
      ring
    have h2 : mean (ts.map fun t => (exact_solution 1 t) ^ 2) = 0 := by
      refine mean_eq_zero _ fun a ha => ?_
      obtain ⟨t, _, rfl⟩ := List.mem_map.1 ha
      rw [(boundary_residual_exact t).2]
      ring
    rw [h1, h2, add_zero]
  · rw [velocity_loss]
    have hmap : (xs.map fun x => (d_t exact_solution x 0) ^ 2 + 1e-6) =
        xs.map fun _ => (1e-6 : ℝ) := by
      refine List.map_congr_left fun x _ => ?_
      rw [velocity_residual_exact]
      ring
    rw [hmap, mean_map_const xs (1e-6 : ℝ) hx]

/-- Witness for C3 at the singleton batch `xs = [0]`, `ts = [0]`. -/
theorem c3_exact_solution_residuals_witness :
    ([(0 : ℝ)] ≠ ([] : List ℝ)) ∧
      physics_loss exact_solution [(0 : ℝ)] [(0 : ℝ)] = 0 ∧
      velocity_loss exact_solution [(0 : ℝ)] = 1e-6 := by
  have h := c3_exact_solution_residuals [(0 : ℝ)] [(0 : ℝ)] (by simp)
  exact ⟨by simp, h.2.2.2.2.1, h.2.2.2.2.2.2.2⟩

lemma sqNorm_nonneg (g : List ℝ) : 0 ≤ sqNorm g := by
  refine List.sum_nonneg fun a ha => ?_
  obtain ⟨b, _, rfl⟩ := List.mem_map.1 ha
  positivity

lemma gradNorm_nonneg (g : List ℝ) : 0 ≤ gradNorm g :=
  Real.sqrt_nonneg _

lemma sqNorm_smul (k : ℝ) (g : List ℝ) :
    sqNorm (g.map fun a => k * a) = k ^ 2 * sqNorm g := by
  rw [sqNorm, sqNorm, List.map_map]
  have hfun : ((fun a => a ^ 2) ∘ fun a => k * a) = fun a => k ^ 2 * a ^ 2 := by
    funext a
    simp [Function.comp]
    ring
  rw [hfun, List.sum_map_mul_left]

lemma gradNorm_smul (k : ℝ) (g : List ℝ) :
    gradNorm (g.map fun a => k * a) = |k| * gradNorm g := by
  rw [gradNorm, gradNorm, sqNorm_smul, Real.sqrt_mul (sq_nonneg k),
    Real.sqrt_sq_eq_abs]

/-- C4: gradient clipping at the threshold `1.0` used by the training loop
— if the gradient vector's global norm exceeds the threshold, the clipped
vector is the original scaled by `threshold/norm` (direction unchanged)
and its norm equals the threshold; at or below the threshold, clipping is
the identity. -/
theorem c4_gradient_clipping (g : List ℝ) :
    (1 < gradNorm g →
        clip_grad_norm 1 g = g.map (fun a => (1 / gradNorm g) * a) ∧
          gradNorm (clip_grad_norm 1 g) = 1) ∧
      (gradNorm g ≤ 1 → clip_grad_norm 1 g = g) := by
  constructor
  · intro h
    have hpos : 0 < gradNorm g := lt_trans one_pos h
    have hclip : clip_grad_norm 1 g = g.map fun a => (1 / gradNorm g) * a := by
      rw [clip_grad_norm, if_pos h]
    refine ⟨hclip, ?_⟩
    rw [hclip, gradNorm_smul, abs_of_pos (by positivity), one_div,
      inv_mul_cancel₀ (ne_of_gt hpos)]
  · intro h
    rw [clip_grad_norm, if_neg (not_lt.2 h)]

/-- Witness for C4 at the one-element gradient vector `[2]`, whose norm
is `2 > 1`. -/
theorem c4_gradient_clipping_witness :
    1 < gradNorm [(2 : ℝ)] ∧ gradNorm (clip_grad_norm 1 [(2 : ℝ)]) = 1 := by
  have h2 : gradNorm [(2 : ℝ)] = 2 := by
    rw [gradNorm, sqNorm]
    simp only [List.map_cons, List.map_nil, List.sum_cons, List.sum_nil]
    rw [add_zero, Real.sqrt_sq (by norm_num : (0 : ℝ) ≤ 2)]
  have hgt : 1 < gradNorm [(2 : ℝ)] := by
    rw [h2]
    norm_num
  exact ⟨hgt, ((c4_gradient_clipping [(2 : ℝ)]).1 hgt).2⟩

lemma trainAux_spec {P O : Type} (lossOf : ℕ → P → RVal)
    (update : ℕ → P → O → P × O) :
    ∀ (fuel epoch : ℕ) (p : P) (o : O),
      (trainAux lossOf update epoch fuel p o).steps ≤ fuel ∧
        ((trainAux lossOf update epoch fuel p o).haltedAt = none →
          (trainAux lossOf update epoch fuel p o).steps = fuel) ∧
        (∀ e, (trainAux lossOf update epoch fuel p o).haltedAt = some e →
          epoch ≤ e ∧ e < epoch + fuel ∧
            (trainAux lossOf update epoch fuel p o).steps = e - epoch ∧
            (lossOf e (trainAux lossOf update epoch fuel p o).params).isNaN = true) := by
  intro fuel
  induction fuel with
  | zero =>
      intro epoch p o
      refine ⟨Nat.le_refl 0, fun _ => rfl, fun e he => ?_⟩
      simp [trainAux] at he
  | succ fuel ih =>
      intro epoch p o
      by_cases hnan : (lossOf epoch p).isNaN = true
      · have hred : trainAux lossOf update epoch (fuel + 1) p o =
            ⟨p, o, some epoch, 0⟩ := by
          simp [trainAux, hnan]
        rw [hred]
        dsimp only
        refine ⟨Nat.zero_le _, fun hc => Option.noConfusion hc, fun e he => ?_⟩
        injection he with he'
        subst he'
        exact ⟨Nat.le_refl _, by omega, by omega, hnan⟩
      · have hred : trainAux lossOf update epoch (fuel + 1) p o =
            ⟨(trainAux lossOf update (epoch + 1) fuel (update epoch p o).1
                (update epoch p o).2).params,
              (trainAux lossOf update (epoch + 1) fuel (update epoch p o).1
                (update epoch p o).2).optState,
              (trainAux lossOf update (epoch + 1) fuel (update epoch p o).1
                (update epoch p o).2).haltedAt,
              (trainAux lossOf update (epoch + 1) fuel (update epoch p o).1
                (update epoch p o).2).steps + 1⟩ := by
          simp [trainAux, hnan]
        obtain ⟨h1, h2, h3⟩ := ih (epoch + 1) (update epoch p o).1 (update epoch p o).2
        rw [hred]
        dsimp only
        refine ⟨by omega, fun hn => ?_, fun e he => ?_⟩
        · have h2n := h2 hn
          omega
        · obtain ⟨ha, hb, hc2, hd⟩ := h3 e he
          exact ⟨by omega, by omega, by omega, hd⟩

/-- C8: the training loop always terminates, performing at most the
configured number of iterations; it either runs the full iteration count
(`haltedAt = none` and `steps = n`) or halts early at some epoch `e < n`
with exactly `e` updates applied because the NaN fatal-stop fired there
— and those are the only exit paths. -/
theorem c8_loop_termination {P O : Type} (lossOf : ℕ → P → RVal)
    (update : ℕ → P → O → P × O) (n : ℕ) (p : P) (o : O) :
    (trainLoop lossOf update n p o).steps ≤ n ∧
      ((trainLoop lossOf update n p o).haltedAt = none →
        (trainLoop lossOf update n p o).steps = n) ∧
      (∀ e, (trainLoop lossOf update n p o).haltedAt = some e →
        e < n ∧ (trainLoop lossOf update n p o).steps = e ∧
          (lossOf e (trainLoop lossOf update n p o).params).isNaN = true) := by
  obtain ⟨h1, h2, h3⟩ := trainAux_spec lossOf update n 0 p o
  rw [trainLoop]
  refine ⟨h1, h2, fun e he => ?_⟩
  obtain ⟨_, hb, hc, hd⟩ := h3 e he
  exact ⟨by omega, by omega, hd⟩

/-- Witness for C8: both exit paths at concrete inputs — a loss that is
never NaN runs all `2` iterations, and a loss that is NaN at once halts
at epoch `0` with `0` updates. -/
theorem c8_loop_termination_witness :
    (trainLoop (fun _ _ => RVal.num 0) (fun _ (p : ℕ) (o : Unit) => (p + 1, o))
        2 0 ()).steps = 2 ∧
      ((trainLoop (fun _ _ => RVal.nan) (fun _ (p : ℕ) (o : Unit) => (p + 1, o))
          2 0 ()).haltedAt = some 0 ∧
        0 < 2 ∧
          (trainLoop (fun _ _ => RVal.nan) (fun _ (p : ℕ) (o : Unit) => (p + 1, o))
            2 0 ()).steps = 0) := by
  refine ⟨?_, rfl, ?_, ?_⟩
  · exact (c8_loop_termination (fun _ _ => RVal.num 0)
      (fun _ (p : ℕ) (o : Unit) => (p + 1, o)) 2 0 ()).2.1 rfl
  · exact ((c8_loop_termination (fun _ _ => RVal.nan)
      (fun _ (p : ℕ) (o : Unit) => (p + 1, o)) 2 0 ()).2.2 0 rfl).1
  · exact ((c8_loop_termination (fun _ _ => RVal.nan)
      (fun _ (p : ℕ) (o : Unit) => (p + 1, o)) 2 0 ()).2.2 0 rfl).2.1

/-- C2 counterexample: the guard is `torch.isnan(loss)`, so a loss equal
to `+inf` — non-finite but not NaN — does NOT halt the loop: with such a
loss at iteration `0`, the one-iteration loop still applies its parameter
update (`params` goes from `0` to `1`) and finishes without a diagnostic,
refuting the claim that any non-finite loss halts before an update. -/
theorem c2_nonfinite_no_halt_counterexample :
    RVal.posInf.isFinite = false ∧ RVal.posInf.isNaN = false ∧
      trainLoop (fun _ _ => RVal.posInf) (fun _ (p : ℕ) (o : Unit) => (p + 1, o))
          1 0 () = ⟨1, (), none, 1⟩ :=
  ⟨rfl, rfl, rfl⟩

/-- C2 (amended): if the loss computed at the current iteration is NaN,
the loop halts entirely and immediately with a diagnostic naming that
iteration, before any gradient propagation or parameter update, leaving
the parameter and optimizer state exactly as they were upon detection and
applying zero further updates. -/
theorem c2_nan_halt_atomic {P O : Type} (lossOf : ℕ → P → RVal)
    (update : ℕ → P → O → P × O) (epoch fuel : ℕ) (p : P) (o : O)
    (h : (lossOf epoch p).isNaN = true) :
    trainAux lossOf update epoch (fuel + 1) p o = ⟨p, o, some epoch, 0⟩ := by
  simp [trainAux, h]

/-- Witness for the amended C2 at a concrete NaN loss. -/
theorem c2_nan_halt_atomic_witness :
    RVal.nan.isNaN = true ∧
      trainAux (fun _ _ => RVal.nan) (fun _ (p : ℕ) (o : Unit) => (p + 1, o))
          0 1 0 () = ⟨0, (), some 0, 0⟩ :=
  ⟨rfl, c2_nan_halt_atomic (fun _ _ => RVal.nan)
    (fun _ (p : ℕ) (o : Unit) => (p + 1, o)) 0 0 0 () rfl⟩

/-- C10: the divergence guard tests specifically for NaN — when the loss
is `+inf` or `-inf` the check does not fire and the iteration proceeds to
the update (backward, clipping, optimizer step) and then to the next
iteration, exactly as on the normal path. -/
theorem c10_guard_is_nan_specific {P O : Type} (lossOf : ℕ → P → RVal)
    (update : ℕ → P → O → P × O) (epoch fuel : ℕ) (p : P) (o : O)
    (h : lossOf epoch p = RVal.posInf ∨ lossOf epoch p = RVal.negInf) :
    (lossOf epoch p).isNaN = false ∧
      trainAux lossOf update epoch (fuel + 1) p o =
        ⟨(trainAux lossOf update (epoch + 1) fuel (update epoch p o).1
            (update epoch p o).2).params,
          (trainAux lossOf update (epoch + 1) fuel (update epoch p o).1
            (update epoch p o).2).optState,
          (trainAux lossOf update (epoch + 1) fuel (update epoch p o).1
            (update epoch p o).2).haltedAt,
          (trainAux lossOf update (epoch + 1) fuel (update epoch p o).1
            (update epoch p o).2).steps + 1⟩ := by
  have hn : (lossOf epoch p).isNaN = false := by
    rcases h with h | h <;> rw [h] <;> rfl
  exact ⟨hn, by simp [trainAux, hn]⟩

/-- Witness for C10 at a concrete `+inf` loss: the single iteration
updates the parameter and no diagnostic is emitted. -/
theorem c10_guard_is_nan_specific_witness :
    ((fun (_ : ℕ) (_ : ℕ) => RVal.posInf) 0 0 = RVal.posInf ∨
        (fun (_ : ℕ) (_ : ℕ) => RVal.posInf) 0 0 = RVal.negInf) ∧
      trainAux (fun _ _ => RVal.posInf) (fun _ (p : ℕ) (o : Unit) => (p + 1, o))
          0 1 0 () = ⟨1, (), none, 1⟩ := by
  refine ⟨Or.inl rfl, ?_⟩
  have h := (c10_guard_is_nan_specific (fun _ _ => RVal.posInf)
    (fun _ (p : ℕ) (o : Unit) => (p + 1, o)) 0 0 0 () (Or.inl rfl)).2
  exact h.trans rfl

/-- C7 counterexample: the evaluator's first statements are the in-place
assignments `x.requires_grad = True` and `t.requires_grad = True`, so a
call on a batch tensor whose requires-grad flag is off does NOT leave the
caller's tensor unchanged, refuting the no-side-effects claim as stated. -/
theorem c7_mutates_requires_grad_counterexample :
    (wave_pinn_loss_call (fun _ _ => 0) ⟨[(0 : ℝ)], false⟩
        ⟨[(0 : ℝ)], false⟩).2.1 ≠ (⟨[(0 : ℝ)], false⟩ : Tensor) := by
  intro h
  have hflag := congrArg Tensor.requires_grad h
  simp [wave_pinn_loss_call] at hflag

/-- C7 (amended): the evaluator is deterministic — its loss value is a
pure function of the approximator and the batch contents — and the only
observable state it changes is the requires-grad flag of the two input
batch tensors, which it sets to true; the tensors' numeric contents are
unchanged. -/
theorem c7_evaluator_effects (u : ℝ → ℝ → ℝ) (x t : Tensor) :
    (wave_pinn_loss_call u x t).1 = wave_pinn_loss u x.vals t.vals ∧
      (wave_pinn_loss_call u x t).2.1.vals = x.vals ∧
      (wave_pinn_loss_call u x t).2.2.vals = t.vals ∧
      (wave_pinn_loss_call u x t).2.1.requires_grad = true ∧
      (wave_pinn_loss_call u x t).2.2.requires_grad = true :=
  ⟨rfl, rfl, rfl, rfl, rfl⟩

lemma rval_add_finite {a b : RVal} (h : (RVal.add a b).isFinite = true) :
    a.isFinite = true ∧ b.isFinite = true := by
  cases a <;> cases b <;> simp_all [RVal.add, RVal.isFinite]

lemma rval_lsum_nonfinite :
    ∀ (l : List RVal) (v : RVal), v ∈ l → v.isFinite = false →
      (RVal.lsum l).isFinite = false := by
  intro l
  induction l with
  | nil =>
      intro v hv _
      cases hv
  | cons a l ih =>
      intro v hv h
      have hstep : RVal.lsum (a :: l) = RVal.add a (RVal.lsum l) := rfl
      rw [hstep]
      rcases List.mem_cons.1 hv with rfl | hmem
      · cases hres : (RVal.add v (RVal.lsum l)).isFinite
        · rfl
        · exact absurd (rval_add_finite hres).1 (by rw [h]; simp)
      · cases hres : (RVal.add a (RVal.lsum l)).isFinite
        · rfl
        · exact absurd (rval_add_finite hres).2 (by rw [ih v hmem h]; simp)

lemma rval_div_num_nonfinite (a : RVal) (b : ℝ) (h : a.isFinite = false) :
    (RVal.div a (RVal.num b)).isFinite = false := by
  cases a with
  | num r => simp [RVal.isFinite] at h
  | posInf =>
      simp only [RVal.div]
      split_ifs <;> rfl
  | negInf =>
      simp only [RVal.div]
      split_ifs <;> rfl
  | nan => rfl

lemma rval_mul_num_nonfinite (a : RVal) (b : ℝ) (h : a.isFinite = false) :
    (RVal.mul a (RVal.num b)).isFinite = false := by
  cases a with
  | num r => simp [RVal.isFinite] at h
  | posInf =>
      simp only [RVal.mul]
      split_ifs <;> rfl
  | negInf =>
      simp only [RVal.mul]
      split_ifs <;> rfl
  | nan => rfl

lemma rval_rabs_nonfinite (a : RVal) (h : a.isFinite = false) :
    (RVal.rabs a).isFinite = false := by
  cases a <;> simp_all [RVal.rabs, RVal.isFinite]

lemma relative_error_term_nonfinite (u : ℝ → ℝ → ℝ) (p : ℝ × ℝ)
    (h : exact_solution p.1 p.2 = 0) :
    (relative_error_term u p).isFinite = false := by
  rw [relative_error_term, h]
  apply rval_rabs_nonfinite
  simp only [RVal.div]
  split_ifs <;> simp_all [RVal.isFinite]

/-- C9: the reporting collaborator's relative-error computation divides
the pointwise error by the reference solution with no guard, so on any
test batch containing a point where `exact_solution` is exactly zero the
relative-error output of `calculate_accuracy` is non-finite (an infinity
or NaN); the zero-reference branch is reached whenever such a point, such
as `x = 0`, is in the test grid. -/
theorem c9_relative_error_nonfinite (u : ℝ → ℝ → ℝ) (xs ts : List ℝ)
    (h : ∃ p ∈ xs.zip ts, exact_solution p.1 p.2 = 0) :
    ((calculate_accuracy u xs ts).2).isFinite = false := by
  obtain ⟨p, hp, hz⟩ := h
  have hacc : (calculate_accuracy u xs ts).2 = relative_error u xs ts := rfl
  rw [hacc, relative_error]
  apply rval_mul_num_nonfinite
  apply rval_div_num_nonfinite
  exact rval_lsum_nonfinite _ _ (List.mem_map.2 ⟨p, hp, rfl⟩)
    (relative_error_term_nonfinite u p hz)

/-- Witness for C9 at the test point `(x, t) = (0, 1/2)`, where the
reference solution is zero, with a model that predicts `1` there. -/
theorem c9_relative_error_nonfinite_witness :
    (∃ p ∈ ([(0 : ℝ)].zip [(1 : ℝ) / 2]), exact_solution p.1 p.2 = 0) ∧
      ((calculate_accuracy (fun _ _ => 1) [(0 : ℝ)] [(1 : ℝ) / 2]).2).isFinite =
        false := by
  have hmem : ((0 : ℝ), (1 : ℝ) / 2) ∈ ([(0 : ℝ)].zip [(1 : ℝ) / 2]) := by
    simp [List.zip]
  have hz : exact_solution (0 : ℝ) ((1 : ℝ) / 2) = 0 := by
    simp [exact_solution]
  exact ⟨⟨((0 : ℝ), (1 : ℝ) / 2), hmem, hz⟩,
    c9_relative_error_nonfinite (fun _ _ => 1) [(0 : ℝ)] [(1 : ℝ) / 2]
      ⟨((0 : ℝ), (1 : ℝ) / 2), hmem, hz⟩⟩
